import Mathlib

/-!
Verification of the mm0-rs lisp evaluator core (`src/elab/lisp/eval.rs`,
`src/util.rs`) against its natural-language specification.  The data model
(`LispKind`, `Proc`, `IR`, `Pattern`, …) lives in the `lisp` module of the
repository, which is outside the provided sources; those types are modelled
from the spec (§3).  Every operation (Uncons traversal, `head`/`tail`,
`int_bool_binop`, `evaluate_builtin`, the `run` state machine transitions)
is translated directly from `eval.rs`.
-/

set_option linter.unusedVariables false

/-- Source span (all-integer model of `util.rs::Span`; `start`/`end` byte
offsets, with `end` renamed `stop` because `end` is a Lean keyword). -/
structure Span where
  start : Nat
  stop : Nat
deriving DecidableEq, Repr

/-- Modelled from the spec: `util.rs::FileRef` wraps an interned
`(PathBuf, Url)` pair; file identity is all the evaluator uses, so we model
it as an opaque numeric identifier. -/
structure FileRef where
  id : Nat
deriving DecidableEq, Repr

/-- A span together with its file (`util.rs::FileSpan`). -/
structure FileSpan where
  file : FileRef
  span : Span
deriving DecidableEq, Repr

/-- Modelled from the spec (§3.4): where a lambda was defined, named or
unnamed, used for stack traces. -/
inductive ProcPos where
  | Named (fsp : FileSpan) (a : Nat)
  | Unnamed (fsp : FileSpan)
deriving DecidableEq, Repr

/-- The defining position's file span (`ProcPos::fspan`). -/
def ProcPos.fspan : ProcPos → FileSpan
  | .Named fsp _ => fsp
  | .Unnamed fsp => fsp

/-- Modelled from the spec (§3.4): arity specification of a procedure. -/
inductive ProcSpec where
  | Exact (n : Nat)
  | AtLeast (n : Nat)
deriving DecidableEq, Repr

/-- Modelled from the source's `BuiltinProc` enum, restricted to the
primitives the claims mention (the remaining tags have independent arms in
`evaluate_builtin` and do not interact with these). -/
inductive BuiltinProc where
  | Sub | Div | Mod | Lt | Le | Gt | Ge | Eq | Head | Tail
deriving DecidableEq, Repr

/-- Modelled from the spec (§3.3): patterns consumed by the pattern
matcher.  `Atom i` binds variable slot `i`; `List ps n` with `n = some k`
means "the listed sub-patterns followed by at least `k` more elements". -/
inductive Pattern where
  | Skip
  | Atom (i : Nat)
  | QuoteAtom (a : Nat)
  | String (s : String)
  | Bool (b : Bool)
  | Number (n : Int)
  | QExprAtom (a : Nat)
  | DottedList (ps : List Pattern) (r : Pattern)
  | List (ps : List Pattern) (n : Option Nat)
  | And (ps : List Pattern)
  | Or (ps : List Pattern)
  | Not (ps : List Pattern)
  | Test (sp : Span) (i : Nat) (ps : List Pattern)

mutual

/-- Modelled from the spec (§3.1): the value model.  `Arc` sharing is
erased (values are trees); `Ref` holds a snapshot of its mutable cell's
content; `AtomMap` is an association list; big integers are `Int`;
`MVar` is opaque. -/
inductive LispKind where
  | Atom (a : Nat)
  | Bool (b : Bool)
  | Number (n : Int)
  | String (s : String)
  | List (es : List LispKind)
  | DottedList (es : List LispKind) (r : LispKind)
  | Proc (p : ProcV)
  | Ref (v : LispKind)
  | AtomMap (m : List (Nat × LispKind))
  | Goal (ty : LispKind)
  | MVar (n : Nat)
  | UnparsedFormula (s : String)
  | Span (fsp : FileSpan) (v : LispKind)
  | Undef

/-- Modelled from the spec (§3.4): procedure kinds.  A `MatchCont` carries
the identity of its shared `AtomicBool` validity flag. -/
inductive ProcV where
  | Builtin (p : BuiltinProc)
  | Lambda (pos : ProcPos) (env : List LispKind) (spec : ProcSpec) (code : IR)
  | MatchCont (valid : Nat)

/-- Modelled from the spec (§3.3): the IR tree the evaluator walks. -/
inductive IR where
  | Local (i : Nat)
  | Global (sp : Span) (a : Nat)
  | Const (v : LispKind)
  | List (sp : Span) (ls : List IR)
  | DottedList (ls : List IR) (e : IR)
  | App (sp1 sp2 : Span) (f : IR) (es : List IR)
  | If (c t e : IR)
  | Focus (es : List IR)
  | Def (x : Option (Span × Nat)) (val : IR)
  | Eval (es : List IR)
  | Lambda (sp : Span) (spec : ProcSpec) (code : IR)
  | Match (sp : Span) (e : IR) (brs : List Branch)

/-- Modelled from the spec (§3.3): one clause of a `match` form. -/
inductive Branch where
  | mk (vars : Nat) (cont : Bool) (pat : Pattern) (eval : IR)

end

/-- The `UNDEF` constant value. -/
def UNDEF : LispKind := LispKind.Undef

/-- The `NIL` constant value (the empty proper list). -/
def NIL : LispKind := .List []

/-- Modelled from the spec (§3.1): the transparent peel through `Ref` and
`Span` layers used by equality, typing and all built-ins. -/
def unwrap : LispKind → LispKind
  | .Ref v => unwrap v
  | .Span _ v => unwrap v
  | v => v

/-- Modelled from the spec (§3.1): every value is truthy except
`Bool(false)`. -/
def truthy : LispKind → Bool
  | .Bool false => false
  | _ => true

/-- Spine length through `Ref`/`Span`/`DottedList` wrappers; the
termination measure for the Uncons traversal functions (each recursive
step moves to the tail of a `DottedList` after unwrapping). -/
def lispSize : LispKind → Nat
  | .Ref v => lispSize v + 1
  | .Span _ v => lispSize v + 1
  | .DottedList _ r => lispSize r + 1
  | _ => 0

/-- Unwrapping never lengthens the spine (justifies termination of the
Uncons traversal functions below). -/
def lispSize_unwrap_le : ∀ e : LispKind, lispSize (unwrap e) ≤ lispSize e
  | .Ref v => Nat.le_trans (lispSize_unwrap_le v) (Nat.le_succ _)
  | .Span _ v => Nat.le_trans (lispSize_unwrap_le v) (Nat.le_succ _)
  | .Atom _ => Nat.le_refl _
  | .Bool _ => Nat.le_refl _
  | .Number _ => Nat.le_refl _
  | .String _ => Nat.le_refl _
  | .List _ => Nat.le_refl _
  | .DottedList _ _ => Nat.le_refl _
  | .Proc _ => Nat.le_refl _
  | .AtomMap _ => Nat.le_refl _
  | .Goal _ => Nat.le_refl _
  | .MVar _ => Nat.le_refl _
  | .UnparsedFormula _ => Nat.le_refl _
  | .Undef => Nat.le_refl _

/-- The lazy list cursor `Uncons(value, index)` (`eval.rs` lines 50-51):
`val` is the (already unwrapped) list-shaped value, `idx` the count of
consumed prefix elements. -/
structure Uncons where
  val : LispKind
  idx : Nat

/-- `Uncons::from`: start a cursor on the unwrapped value (`from` is a
Lean keyword, hence the prime). -/
def Uncons.from' (e : LispKind) : Uncons := ⟨unwrap e, 0⟩

/-- Body of `Uncons::exactly` on the destructured cursor; the recursive
call `Self::from(r).exactly(n - es.len())` becomes a call on
`(unwrap r, 0)`. -/
def exactlyAux : LispKind → Nat → Nat → Bool
  | .List es, i, n => i + n == es.length
  | .DottedList es r, i, n =>
      if i + n ≤ es.length then false
      else exactlyAux (unwrap r) 0 (n - es.length)
  | _, _, _ => false
termination_by v _ _ => lispSize v
decreasing_by
  simp only [lispSize]
  exact Nat.lt_succ_of_le (lispSize_unwrap_le r)

/-- `Uncons::exactly`: the remaining length is exactly `n`. -/
def Uncons.exactly (u : Uncons) (n : Nat) : Bool := exactlyAux u.val u.idx n

/-- Body of `Uncons::is_list` (ignores the index): the cursor's value ends
in a proper list. -/
def is_listAux : LispKind → Bool
  | .List _ => true
  | .DottedList _ r => is_listAux (unwrap r)
  | _ => false
termination_by v => lispSize v
decreasing_by
  simp only [lispSize]
  exact Nat.lt_succ_of_le (lispSize_unwrap_le r)

/-- `Uncons::is_list`. -/
def Uncons.is_list (u : Uncons) : Bool := is_listAux u.val

/-- Body of `Uncons::at_least` exactly as written in the source
(`eval.rs` lines 69-76): note that the `List` arm tests
`self.1 + n == es.len()`, an equality. -/
def at_leastAux : LispKind → Nat → Nat → Bool
  | .List es, i, n => i + n == es.length
  | .DottedList es r, i, n =>
      if i + n ≤ es.length then is_listAux (unwrap r)
      else at_leastAux (unwrap r) 0 (n - es.length)
  | _, _, _ => false
termination_by v _ _ => lispSize v
decreasing_by
  simp only [lispSize]
  exact Nat.lt_succ_of_le (lispSize_unwrap_le r)

/-- `Uncons::at_least`. -/
def Uncons.at_least (u : Uncons) (n : Nat) : Bool := at_leastAux u.val u.idx n

/-- Body of `Uncons::uncons`: pop the next element; the mutable update of
the cursor is returned alongside the element.  The loop arm
`*self = Self::from(r)` becomes the recursive call on `(unwrap r, 0)`. -/
def unconsAux : LispKind → Nat → Option (LispKind × Uncons)
  | .List es, i =>
      match es.get? i with
      | none => none
      | some e => some (e, ⟨.List es, i + 1⟩)
  | .DottedList es r, i =>
      match es.get? i with
      | none => unconsAux (unwrap r) 0
      | some e => some (e, ⟨.DottedList es r, i + 1⟩)
  | _, _ => none
termination_by v _ => lispSize v
decreasing_by
  simp only [lispSize]
  exact Nat.lt_succ_of_le (lispSize_unwrap_le r)

/-- `Uncons::uncons`. -/
def Uncons.uncons (u : Uncons) : Option (LispKind × Uncons) :=
  unconsAux u.val u.idx

/-- `Uncons::as_lisp`: re-materialise the remaining suffix.  The source's
`unreachable!()` default (a cursor with positive index over a non-list
value is never built) is modelled as `Undef`. -/
def Uncons.as_lisp (u : Uncons) : LispKind :=
  if u.idx = 0 then u.val
  else match u.val with
    | .List es => if u.idx = es.length then NIL else .List (es.drop u.idx)
    | .DottedList es r =>
        if u.idx = es.length then r else .DottedList (es.drop u.idx) r
    | _ => LispKind.Undef

/-- Modelled from the spec (§1): the printer that renders values is an
external collaborator and out of scope; the claims depend only on the
prefix of the error messages it is embedded into, so a shallow rendering
suffices. -/
def printLisp : LispKind → String
  | .Number n => toString n
  | .Bool true => "#t"
  | .Bool false => "#f"
  | .String s => s
  | _ => "<lisp>"

/-- `Elaborator::as_int` (`eval.rs` lines 234-238): a typed accessor that
sees through `Ref`/`Span` and reports "expected a integer" (sic) on
mismatch. -/
def as_int (e : LispKind) : Except String Int :=
  match unwrap e with
  | .Number n => .ok n
  | _ => .error ("expected a integer, got " ++ printLisp e)

/-- Loop body of `Elaborator::int_bool_binop`: compare each adjacent pair,
short-circuiting to `Ok(false)` on the first failing pair. -/
def int_bool_binop_go (f : Int → Int → Bool) : Int → List LispKind → Except String Bool
  | _, [] => .ok true
  | last, v :: it =>
      match as_int v with
      | .error s => .error s
      | .ok new => if f last new then int_bool_binop_go f new it else .ok false

/-- `Elaborator::int_bool_binop` (`eval.rs` lines 273-282).  The source
takes the first argument with `it.next().unwrap()`; the builtin arity
check guarantees at least one argument, so the empty case is
unreachable. -/
def int_bool_binop (f : Int → Int → Bool) (args : List LispKind) : Except String Bool :=
  match args with
  | [] => .error "invalid arguments"
  | a :: it =>
      match as_int a with
      | .error s => .error s
      | .ok last => int_bool_binop_go f last it

/-- `Elaborator::head` (`eval.rs` lines 284-294). -/
def head : LispKind → Except String LispKind
  | .Ref v => head v
  | .Span _ v => head v
  | .List [] => .error "evaluating \x27hd ()\x27"
  | .List (e :: _) => .ok e
  | .DottedList [] r => head r
  | .DottedList (e :: _) _ => .ok e
  | e => .error ("expected a list, got " ++ printLisp e)

/-- The local `exponential_backoff` helper of `Elaborator::tail`
(`eval.rs` lines 297-301): starting from index `i`, emit
`DottedList(es[i..2i], emit(2i))` until `2i ≥ len(es)`, then finish with
`r (es[i..])`.  The extra `fuel` argument makes the doubling recursion
structural; it is always called with `fuel = es.length`, which is more
than the number of doubling steps from `i = 1`, and the fuel-exhausted
fallback coincides with the terminating branch, so the function agrees
with the source on every reachable call. -/
def exponential_backoff (es : List LispKind) (r : List LispKind → LispKind) :
    Nat → Nat → LispKind
  | i, 0 => r (es.drop i)
  | i, fuel + 1 =>
      if es.length ≤ 2 * i then r (es.drop i)
      else .DottedList ((es.drop i).take i) (exponential_backoff es r (2 * i) fuel)

/-- `Elaborator::tail` (`eval.rs` lines 296-313). -/
def tail : LispKind → Except String LispKind
  | .Ref v => tail v
  | .Span _ v => tail v
  | .List [] => .error "evaluating \x27tl ()\x27"
  | .List es => .ok (exponential_backoff es LispKind.List 1 es.length)
  | .DottedList [] r => tail r
  | .DottedList es r =>
      .ok (exponential_backoff es (fun v => .DottedList v r) 1 es.length)
  | e => .error ("expected a list, got " ++ printLisp e)

/-- The `for e in args { n op= as_int(e)? }` folds in `evaluate_builtin`:
a left fold over the remaining arguments, propagating the first type
error. -/
def fold_ints (op : Int → Int → Int) : Int → List LispKind → Except String Int
  | n, [] => .ok n
  | n, e :: rest =>
      match as_int e with
      | .error s => .error s
      | .ok m => fold_ints op (op n m) rest

/-- `Evaluator::evaluate_builtin` (`eval.rs` lines 370-542), restricted to
the claim-relevant arms; each of these arms wraps its value in
`State::Ret`, which we elide.  Note the `Sub`/`Div`/`Mod` arms start their
fold from `args.pop().unwrap()` — the LAST argument — and then iterate
over the remaining (earlier) arguments in order; the `getLastD`/`dropLast`
pair mirrors this.  The arity precheck (`spec.valid`) guarantees at least
one argument, so the `Undef` defaults are unreachable. -/
def evaluate_builtin : BuiltinProc → List LispKind → Except String LispKind
  | .Sub, args =>
      if args.length = 1 then
        match as_int (args.getD 0 .Undef) with
        | .error s => .error s
        | .ok n => .ok (.Number (-n))
      else
        match as_int (args.getLastD .Undef) with
        | .error s => .error s
        | .ok n =>
            match fold_ints (· - ·) n args.dropLast with
            | .error s => .error s
            | .ok r => .ok (.Number r)
  | .Div, args =>
      match as_int (args.getLastD .Undef) with
      | .error s => .error s
      | .ok n =>
          match fold_ints Int.tdiv n args.dropLast with
          | .error s => .error s
          | .ok r => .ok (.Number r)
  | .Mod, args =>
      match as_int (args.getLastD .Undef) with
      | .error s => .error s
      | .ok n =>
          match fold_ints Int.tmod n args.dropLast with
          | .error s => .error s
          | .ok r => .ok (.Number r)
  | .Lt, args => (int_bool_binop (fun a b => decide (a < b)) args).map fun b => .Bool b
  | .Le, args => (int_bool_binop (fun a b => decide (a ≤ b)) args).map fun b => .Bool b
  | .Gt, args => (int_bool_binop (fun a b => decide (a > b)) args).map fun b => .Bool b
  | .Ge, args => (int_bool_binop (fun a b => decide (a ≥ b)) args).map fun b => .Bool b
  | .Eq, args => (int_bool_binop (fun a b => decide (a = b)) args).map fun b => .Bool b
  | .Head, args => head (args.getD 0 .Undef)
  | .Tail, args => tail (args.getD 0 .Undef)

/-- Iterated application of the `Tail` builtin (`(tail (tail ... v))`). -/
def tail_iter : Nat → LispKind → Except String LispKind
  | 0, v => .ok v
  | k + 1, v => (evaluate_builtin .Tail [v]).bind (tail_iter k)

/-- `DottedList`-nesting depth along the tail spine of a value. -/
def ddepth : LispKind → Nat
  | .DottedList _ r => ddepth r + 1
  | _ => 0

/-- `ProperChain v l`: the value `v` is a proper list whose flattened element
sequence (in the sense of the spec §3.2, where a `DottedList` whose tail
is a list is indistinguishable from the flattened list) is `l`. -/
inductive ProperChain : LispKind → List LispKind → Prop
  | List (es : List LispKind) : ProperChain (.List es) es
  | DottedList (es : List LispKind) (r : LispKind) (l : List LispKind) :
      ProperChain r l → ProperChain (.DottedList es r) (es ++ l)

/-- The `Dot` tail-handling mode of a pattern-list frame
(`eval.rs` line 104). -/
inductive Dot where
  | List (n : Option Nat)
  | DottedList (p : Pattern)

/-- Pattern-matcher stack frames (`eval.rs` lines 105-108). -/
inductive PatternStack where
  | List (u : Uncons) (it : List Pattern) (dot : Dot)
  | Binary (or out : Bool) (e : LispKind) (it : List Pattern)

/-- Pattern-matcher states (`eval.rs` lines 110-115). -/
inductive PatternState where
  | Eval (p : Pattern) (e : LispKind)
  | Ret (b : Bool)
  | List (u : Uncons) (it : List Pattern) (dot : Dot)
  | Binary (or out : Bool) (e : LispKind) (it : List Pattern)

/-- Control-stack frames of the main engine (`eval.rs` lines 11-27).
Iterators over IR/branch slices become lists; the `Arc<AtomicBool>` of a
`MatchCont` frame becomes the numeric identity of the shared flag; the
`Arc<IR>` owning handle in `Ret` is just the IR. -/
inductive Stack where
  | List (sp : Span) (vec : List LispKind) (it : List IR)
  | DottedList (vec : List LispKind) (it : List IR) (e : IR)
  | DottedList2 (vec : List LispKind)
  | App (sp1 sp2 : Span) (es : List IR)
  | App2 (sp1 sp2 : Span) (f : LispKind) (vec : List LispKind) (it : List IR)
  | If (e1 e2 : IR)
  | Def (x : Option (Span × Nat))
  | Eval (it : List IR)
  | Match (sp : Span) (it : List Branch)
  | TestPattern (sp : Span) (e : LispKind) (it : List Branch) (br : Branch)
      (pstack : List PatternStack) (vars : List LispKind)
  | Drop_
  | Ret (fsp : FileSpan) (pos : ProcPos) (old : List LispKind) (code : IR)
  | MatchCont (sp : Span) (e : LispKind) (it : List Branch) (valid : Nat)
  | MapProc (sp1 sp2 : Span) (f : LispKind) (us : List Uncons) (vec : List LispKind)

/-- `Stack::supports_def` (`eval.rs` lines 29-37). -/
def Stack.supports_def : Stack → Bool
  | .App2 _ _ _ _ _ => true
  | .Eval _ => true
  | _ => false

/-- Engine states (`eval.rs` lines 38-48). -/
inductive State where
  | Eval (ir : IR)
  | Ret (v : LispKind)
  | List (sp : Span) (vec : List LispKind) (it : List IR)
  | DottedList (vec : List LispKind) (it : List IR) (r : IR)
  | App (sp1 sp2 : Span) (f : LispKind) (args : List LispKind) (it : List IR)
  | Match (sp : Span) (e : LispKind) (it : List Branch)
  | Pattern (sp : Span) (e : LispKind) (it : List Branch) (br : Branch)
      (pstack : List PatternStack) (vars : List LispKind) (st : PatternState)
  | MapProc (sp1 sp2 : Span) (f : LispKind) (us : List Uncons) (vec : List LispKind)

/-- The mutable ambient state of `Evaluator::run` (§3.5): the local
context vector `ctx` (indexed from the front, pushed/popped at the back),
the current file, the control stack (head = top of the Rust `Vec`), the
store of all shared `AtomicBool` continuation flags (identified by
number), and the elaborator's global binding table `lisp_ctx[a].1`. -/
structure Machine where
  ctx : List LispKind
  file : FileRef
  stack : List Stack
  flags : Nat → Bool
  globals : Nat → Option (Option FileSpan × LispKind)

/-- `valid.store(false, Ordering::Relaxed)` on the flag store. -/
def setFlag (σ : Nat → Bool) (a : Nat) : Nat → Bool :=
  fun x => if x = a then false else σ x

/-- Write to the global binding table (`self.lisp_ctx[a].1 = v`). -/
def setGlobal (g : Nat → Option (Option FileSpan × LispKind)) (a : Nat)
    (v : Option FileSpan × LispKind) : Nat → Option (Option FileSpan × LispKind) :=
  fun x => if x = a then some v else g x

/-- Result of one `State::Ret` transition: either the run loop finishes
with a final value (`self.stack.pop()` returned `None`), or it continues
in a new state. -/
inductive StepOut where
  | final (v : LispKind)
  | next (m : Machine) (s : State)

/-- The `State::Ret(ret)` arm of `Evaluator::run` (`eval.rs` lines
606-646): pop one frame and dispatch on it.  In the `MatchCont` arm the
source stores `false` only when the `Arc` is still shared
(`Arc::try_unwrap` fails); an unshared flag can never be read again, so
the unconditional store is observationally identical. -/
def stepRet (ret : LispKind) (m : Machine) : StepOut :=
  match m.stack with
  | [] => .final ret
  | .List sp vec it :: rest =>
      .next { m with stack := rest } (.List sp (vec ++ [ret]) it)
  | .DottedList vec it e :: rest =>
      .next { m with stack := rest } (.DottedList (vec ++ [ret]) it e)
  | .DottedList2 [] :: rest => .next { m with stack := rest } (.Ret ret)
  | .DottedList2 vec :: rest =>
      .next { m with stack := rest } (.Ret (match ret with
        | .List es => .List (vec ++ es)
        | .DottedList es e => .DottedList (vec ++ es) e
        | e => .DottedList vec e))
  | .App sp1 sp2 es :: rest =>
      .next { m with stack := rest } (.App sp1 sp2 ret [] es)
  | .App2 sp1 sp2 f vec it :: rest =>
      .next { m with stack := rest } (.App sp1 sp2 f (vec ++ [ret]) it)
  | .If e1 e2 :: rest =>
      .next { m with stack := rest }
        (.Eval (if truthy (unwrap ret) then e1 else e2))
  | .Def x :: rest =>
      (match rest with
       | [] =>
          (match x with
           | some (sp, a) =>
              .next
                { m with
                  stack := [],
                  globals := setGlobal m.globals a (some ⟨m.file, sp⟩, ret) }
                (.Ret UNDEF)
           | none => .next { m with stack := [] } (.Ret UNDEF))
       | s :: rest2 =>
          if s.supports_def then
            .next { m with stack := s :: .Drop_ :: rest2, ctx := m.ctx ++ [ret] }
              (.Ret UNDEF)
          else .next { m with stack := s :: rest2 } (.Ret UNDEF))
  | .Eval it :: rest =>
      (match it with
       | [] => .next { m with stack := rest } (.Ret ret)
       | e :: it' => .next { m with stack := .Eval it' :: rest } (.Eval e))
  | .Match sp it :: rest => .next { m with stack := rest } (.Match sp ret it)
  | .TestPattern sp e it br pstack vars :: rest =>
      .next { m with stack := rest }
        (.Pattern sp e it br pstack vars (.Ret (truthy (unwrap ret))))
  | .Drop_ :: rest =>
      .next { m with stack := rest, ctx := m.ctx.dropLast } (.Ret ret)
  | .Ret fsp _ old _ :: rest =>
      .next { m with stack := rest, file := fsp.file, ctx := old } (.Ret ret)
  | .MatchCont _ _ _ valid :: rest =>
      .next { m with stack := rest, flags := setFlag m.flags valid } (.Ret ret)
  | .MapProc sp1 sp2 f us vec :: rest =>
      .next { m with stack := rest } (.MapProc sp1 sp2 f us (vec ++ [ret]))

/-- The `Proc::Lambda` arm of application (`eval.rs` lines 674-700): if
the top of the control stack is already a `Ret` frame this is a tail
call, and the frame is replaced in place (keeping the caller's saved file
span and context, installing the callee's position and code); otherwise a
fresh `Ret` frame recording the caller's `ctx` is pushed.  Then `file`
moves to the lambda's defining file and `ctx` is the closure environment
extended with the arguments per the arity spec.  The returned `IR` is the
body the engine evaluates next (`State::Eval(code)`). -/
def applyLambda (sp1 : Span) (pos : ProcPos) (env : List LispKind)
    (spec : ProcSpec) (code : IR) (args : List LispKind) (m : Machine) :
    Machine × State :=
  let m1 := match m.stack with
    | .Ret fsp _ old _ :: rest =>
        { m with ctx := env, stack := .Ret fsp pos old code :: rest }
    | _ =>
        { m with stack := .Ret ⟨m.file, sp1⟩ pos m.ctx code :: m.stack,
                 ctx := env }
  let m2 := { m1 with file := pos.fspan.file }
  let m3 := match spec with
    | .Exact _ => { m2 with ctx := m2.ctx ++ args }
    | .AtLeast nargs =>
        { m2 with ctx := m2.ctx ++ args.take nargs ++ [.List (args.drop nargs)] }
  (m3, .Eval code)

/-- The unwinding loop of the `Proc::MatchCont` arm (`eval.rs` lines
704-717): pop frames, clearing the flag of every popped `MatchCont` frame
(pointer equality of the `Arc<AtomicBool>` becomes equality of flag
identities), dropping one local per `Drop_`, restoring `file`/`ctx` at
`Ret` frames, until the frame owning `valid` is found; an exhausted stack
raises "continuation has expired". -/
def unwindCont (valid : Nat) :
    List Stack → List LispKind → FileRef → (Nat → Bool) →
    Except String (List Stack × List LispKind × FileRef × (Nat → Bool) ×
      Span × LispKind × List Branch)
  | [], _, _, _ => .error "continuation has expired"
  | .MatchCont sp e it a :: rest, ctx, file, σ =>
      let σ' := setFlag σ a
      if a = valid then .ok (rest, ctx, file, σ', sp, e, it)
      else unwindCont valid rest ctx file σ'
  | .Drop_ :: rest, ctx, file, σ => unwindCont valid rest ctx.dropLast file σ
  | .Ret fsp _ old _ :: rest, _, _, σ => unwindCont valid rest old fsp.file σ
  | _ :: rest, ctx, file, σ => unwindCont valid rest ctx file σ

/-- The `Proc::MatchCont(valid)` arm of application (`eval.rs` lines
702-717): an already-cleared flag raises "continuation has expired";
otherwise unwind to the owning frame and resume matching at the remaining
branches. -/
def invokeCont (sp2 : Span) (valid : Nat) (m : Machine) :
    Except String (Machine × State) :=
  if m.flags valid = false then .error "continuation has expired"
  else
    match unwindCont valid m.stack m.ctx m.file m.flags with
    | .error s => .error s
    | .ok (rest, ctx, file, σ, sp, e, it) =>
        .ok ({ m with stack := rest, ctx := ctx, file := file, flags := σ },
             .Match sp e it)

/-- Result of one step of the pattern matcher: the loop returned a
boolean, suspended on a `Test` pattern (`Err(TestPending(sp, i))`), or
continues with a new state. -/
inductive PatternStepOut where
  | Done (vars : List LispKind) (b : Bool)
  | Continue (vars : List LispKind) (stk : List PatternStack) (st : PatternState)
  | TestSuspend (vars : List LispKind) (stk : List PatternStack) (sp : Span) (i : Nat)

/-- One iteration of the loop body of `Elaborator::pattern_match`
(`eval.rs` lines 122-187).  The `ctx` parameter of the source is the
branch's variable box (`vars`), mutated in place by binder patterns;
`Uncons::uncons`'s mutation is modelled by threading the updated
cursor. -/
def patternStep (vars : List LispKind) (stk : List PatternStack) :
    PatternState → PatternStepOut
  | .Eval p e =>
      match p with
      | .Skip => .Continue vars stk (.Ret true)
      | .Atom i => .Continue (vars.set i e) stk (.Ret true)
      | .QuoteAtom a => .Continue vars stk (.Ret
          (match unwrap e with | .Atom a2 => a == a2 | _ => false))
      | .String s => .Continue vars stk (.Ret
          (match unwrap e with | .String s2 => s == s2 | _ => false))
      | .Bool b => .Continue vars stk (.Ret
          (match unwrap e with | .Bool b2 => b == b2 | _ => false))
      | .Number i => .Continue vars stk (.Ret
          (match unwrap e with | .Number i2 => i == i2 | _ => false))
      | .QExprAtom a => .Continue vars stk (.Ret
          (match unwrap e with
           | .Atom a2 => a == a2
           | .List es =>
              if es.length == 1 then
                match unwrap (es.getD 0 .Undef) with
                | .Atom a2 => a == a2
                | _ => false
              else false
           | _ => false))
      | .DottedList ps r =>
          .Continue vars stk (.List (Uncons.from' e) ps (.DottedList r))
      | .List ps n => .Continue vars stk (.List (Uncons.from' e) ps (.List n))
      | .And ps => .Continue vars stk (.Binary false false e ps)
      | .Or ps => .Continue vars stk (.Binary true true e ps)
      | .Not ps => .Continue vars stk (.Binary true false e ps)
      | .Test sp i ps => .TestSuspend vars (.Binary false false e ps :: stk) sp i
  | .Ret b =>
      match stk with
      | [] => .Done vars b
      | .List u it r :: rest =>
          if b then .Continue vars rest (.List u it r)
          else .Continue vars rest (.Ret false)
      | .Binary or out u it :: rest =>
          if xor b or then .Continue vars rest (.Binary or out u it)
          else .Continue vars rest (.Ret out)
  | .List u it dot =>
      match it with
      | [] =>
          match dot with
          | .List none => .Continue vars stk (.Ret (u.exactly 0))
          | .List (some n) => .Continue vars stk (.Ret (u.at_least n))
          | .DottedList p => .Continue vars stk (.Eval p u.as_lisp)
      | p :: it' =>
          match u.uncons with
          | none => .Continue vars stk (.Ret false)
          | some (l, u') => .Continue vars (.List u' it' dot :: stk) (.Eval p l)
  | .Binary or out e it =>
      match it with
      | [] => .Continue vars stk (.Ret (!out))
      | p :: it' => .Continue vars (.Binary or out e it' :: stk) (.Eval p e)

/-- Clearing a flag clears it. -/
theorem setFlag_self (σ : Nat → Bool) (a : Nat) : setFlag σ a a = false := by
  simp [setFlag]

/-- Clearing one flag does not revive another. -/
theorem setFlag_false (σ : Nat → Bool) (a x : Nat) (h : σ x = false) :
    setFlag σ a x = false := by
  simp [setFlag]; intro; exact h

/-- C1: the spec says `List(ps, Some(n))` / `Uncons::at_least(n)` means
"at least `n` elements remain", but the source's `List` arm of
`at_least` tests `self.1 + n == es.len()` — equality, exactly like
`exactly`.  On the cursor `(List [1, 2], 0)` two elements remain, yet
`at_least 1` is `false`; consequently the pattern-list step with
`Dot::List(Some 1)` on a cursor with two remaining elements also yields
`Ret(false)` where the claim requires success. -/
theorem at_least_is_exact_on_lists :
    Uncons.at_least ⟨.List [.Number 1, .Number 2], 0⟩ 1 = false ∧
    1 ≤ [LispKind.Number 1, LispKind.Number 2].length ∧
    patternStep [] []
      (.List ⟨.List [.Number 1, .Number 2, .Number 3], 1⟩ [] (.List (some 1))) =
      .Continue [] [] (.Ret false) := by
  refine ⟨?_, by simp, ?_⟩
  · simp [Uncons.at_least, at_leastAux]
  · simp [patternStep, Uncons.at_least, at_leastAux]

/-- C2: the `Sub`/`Div` folds in `evaluate_builtin` start from
`args.pop().unwrap()`, the LAST argument.  So `(- 10 1 2)` evaluates to
`2 - 10 - 1 = -9` (the claim requires `10 - 1 - 2 = 7`) and
`(/ 100 10 5)` evaluates to `(5 / 100) / 10 = 0` (the claim requires
`100 / 10 / 5 = 2`). -/
theorem sub_div_fold_from_last :
    evaluate_builtin .Sub [.Number 10, .Number 1, .Number 2] = .ok (.Number (-9)) ∧
    evaluate_builtin .Div [.Number 100, .Number 10, .Number 5] = .ok (.Number 0) ∧
    evaluate_builtin .Sub [.Number 10, .Number 1, .Number 2] ≠ .ok (.Number 7) := by
  refine ⟨rfl, rfl, ?_⟩
  intro h
  simp [evaluate_builtin, as_int, unwrap, fold_ints] at h

/-- C3: applying a `Lambda` while the top of the control stack is a `Ret`
frame replaces that frame in place — the caller's saved file span and
saved context are preserved, the callee's position and code are
installed — so the control-stack length is unchanged (hence a
self-tail-recursive loop runs at constant control-stack depth). -/
theorem tail_call_replaces_ret_frame (sp1 : Span) (pos : ProcPos)
    (env : List LispKind) (spec : ProcSpec) (code : IR) (args : List LispKind)
    (m : Machine) (fsp : FileSpan) (p : ProcPos) (old : List LispKind) (c : IR)
    (rest : List Stack) (h : m.stack = .Ret fsp p old c :: rest) :
    (applyLambda sp1 pos env spec code args m).1.stack =
      .Ret fsp pos old code :: rest ∧
    (applyLambda sp1 pos env spec code args m).1.stack.length =
      m.stack.length := by
  cases spec <;> simp [applyLambda, h]

/-- Witness for C3 at a concrete machine whose stack top is a `Ret`
frame. -/
theorem tail_call_replaces_ret_frame_witness :
    (applyLambda ⟨0, 0⟩ (.Unnamed ⟨⟨1⟩, ⟨0, 0⟩⟩) [] (.Exact 0) (.Const .Undef) []
      ⟨[.Undef], ⟨9⟩,
        [.Ret ⟨⟨2⟩, ⟨3, 4⟩⟩ (.Unnamed ⟨⟨5⟩, ⟨0, 0⟩⟩) [.Undef, .Undef] (.Local 0),
         .Drop_],
        fun _ => true, fun _ => none⟩).1.stack =
      .Ret ⟨⟨2⟩, ⟨3, 4⟩⟩ (.Unnamed ⟨⟨1⟩, ⟨0, 0⟩⟩) [.Undef, .Undef] (.Const .Undef)
        :: [.Drop_] ∧
    (applyLambda ⟨0, 0⟩ (.Unnamed ⟨⟨1⟩, ⟨0, 0⟩⟩) [] (.Exact 0) (.Const .Undef) []
      ⟨[.Undef], ⟨9⟩,
        [.Ret ⟨⟨2⟩, ⟨3, 4⟩⟩ (.Unnamed ⟨⟨5⟩, ⟨0, 0⟩⟩) [.Undef, .Undef] (.Local 0),
         .Drop_],
        fun _ => true, fun _ => none⟩).1.stack.length =
      [Stack.Ret ⟨⟨2⟩, ⟨3, 4⟩⟩ (.Unnamed ⟨⟨5⟩, ⟨0, 0⟩⟩) [.Undef, .Undef] (.Local 0),
       Stack.Drop_].length :=
  tail_call_replaces_ret_frame ⟨0, 0⟩ (.Unnamed ⟨⟨1⟩, ⟨0, 0⟩⟩) [] (.Exact 0)
    (.Const .Undef) [] _ ⟨⟨2⟩, ⟨3, 4⟩⟩ (.Unnamed ⟨⟨5⟩, ⟨0, 0⟩⟩) [.Undef, .Undef]
    (.Local 0) [.Drop_] rfl

/-- C4: finalising a dotted-list literal at a `DottedList2(accum)` frame:
with empty `accum` the result is the tail value itself; otherwise a
`List` tail is flattened into `List(accum ++ elements)`, a `DottedList`
tail contributes its prefix (keeping its own tail), and any other value
becomes the improper tail `DottedList(accum, v)`. -/
theorem dotted_list2_finalize (accum : List LispKind) (rest : List Stack)
    (ctx : List LispKind) (file : FileRef) (flags : Nat → Bool)
    (globals : Nat → Option (Option FileSpan × LispKind)) (v : LispKind) :
    (accum = [] →
      stepRet v ⟨ctx, file, .DottedList2 accum :: rest, flags, globals⟩ =
        .next ⟨ctx, file, rest, flags, globals⟩ (.Ret v)) ∧
    (accum ≠ [] → ∀ es, v = .List es →
      stepRet v ⟨ctx, file, .DottedList2 accum :: rest, flags, globals⟩ =
        .next ⟨ctx, file, rest, flags, globals⟩ (.Ret (.List (accum ++ es)))) ∧
    (accum ≠ [] → ∀ es e, v = .DottedList es e →
      stepRet v ⟨ctx, file, .DottedList2 accum :: rest, flags, globals⟩ =
        .next ⟨ctx, file, rest, flags, globals⟩
          (.Ret (.DottedList (accum ++ es) e))) ∧
    (accum ≠ [] → (∀ es, v ≠ .List es) → (∀ es e, v ≠ .DottedList es e) →
      stepRet v ⟨ctx, file, .DottedList2 accum :: rest, flags, globals⟩ =
        .next ⟨ctx, file, rest, flags, globals⟩ (.Ret (.DottedList accum v))) := by
  cases accum with
  | nil =>
      refine ⟨fun _ => rfl, fun h => absurd rfl h, fun h => absurd rfl h,
        fun h => absurd rfl h⟩
  | cons a as =>
      refine ⟨fun h => by simp at h, ?_, ?_, ?_⟩
      · rintro _ es rfl; rfl
      · rintro _ es e rfl; rfl
      · intro _ hl hd
        cases v <;> first
          | rfl
          | exact absurd rfl (hl _)
          | exact absurd rfl (hd _ _)

/-- Witness for C4: a two-element accumulator flattened with a `List`
tail. -/
theorem dotted_list2_finalize_witness :
    stepRet (.List [.Number 3]) ⟨[], ⟨0⟩, [.DottedList2 [.Number 1, .Number 2]],
        fun _ => true, fun _ => none⟩ =
      .next ⟨[], ⟨0⟩, [], fun _ => true, fun _ => none⟩
        (.Ret (.List [.Number 1, .Number 2, .Number 3])) :=
  (dotted_list2_finalize [.Number 1, .Number 2] [] [] ⟨0⟩ (fun _ => true)
      (fun _ => none) (.List [.Number 3])).2.1 (by simp) [.Number 3] rfl

/-- During a continuation unwind no flag is ever set back to `true`. -/
theorem unwind_preserves_false (valid : Nat) :
    ∀ (stk : List Stack) (ctx : List LispKind) (file : FileRef) (σ : Nat → Bool)
      (rest : List Stack) (ctx' : List LispKind) (file' : FileRef)
      (σ' : Nat → Bool) (sp : Span) (e : LispKind) (it : List Branch),
      unwindCont valid stk ctx file σ = .ok (rest, ctx', file', σ', sp, e, it) →
      ∀ x, σ x = false → σ' x = false := by
  intro stk
  induction stk with
  | nil => intro _ _ _ _ _ _ _ _ _ _ h; simp [unwindCont] at h
  | cons s stk ih =>
      intro ctx file σ rest ctx' file' σ' sp e it h x hx
      cases s with
      | MatchCont sp0 e0 it0 a =>
          by_cases ha : a = valid
          · simp [unwindCont, ha] at h
            obtain ⟨-, -, -, hσ, -, -, -⟩ := h
            subst hσ
            exact setFlag_false _ _ _ hx
          · simp [unwindCont, ha] at h
            exact ih _ _ _ _ _ _ _ _ _ _ h x (setFlag_false _ _ _ hx)
      | Drop_ => simp [unwindCont] at h; exact ih _ _ _ _ _ _ _ _ _ _ h x hx
      | Ret fsp p old c =>
          simp [unwindCont] at h; exact ih _ _ _ _ _ _ _ _ _ _ h x hx
      | List a b c => simp [unwindCont] at h; exact ih _ _ _ _ _ _ _ _ _ _ h x hx
      | DottedList a b c =>
          simp [unwindCont] at h; exact ih _ _ _ _ _ _ _ _ _ _ h x hx
      | DottedList2 a => simp [unwindCont] at h; exact ih _ _ _ _ _ _ _ _ _ _ h x hx
      | App a b c => simp [unwindCont] at h; exact ih _ _ _ _ _ _ _ _ _ _ h x hx
      | App2 a b c d e' => simp [unwindCont] at h; exact ih _ _ _ _ _ _ _ _ _ _ h x hx
      | If a b => simp [unwindCont] at h; exact ih _ _ _ _ _ _ _ _ _ _ h x hx
      | Def a => simp [unwindCont] at h; exact ih _ _ _ _ _ _ _ _ _ _ h x hx
      | Eval a => simp [unwindCont] at h; exact ih _ _ _ _ _ _ _ _ _ _ h x hx
      | Match a b => simp [unwindCont] at h; exact ih _ _ _ _ _ _ _ _ _ _ h x hx
      | TestPattern a b c d e' f =>
          simp [unwindCont] at h; exact ih _ _ _ _ _ _ _ _ _ _ h x hx
      | MapProc a b c d e' =>
          simp [unwindCont] at h; exact ih _ _ _ _ _ _ _ _ _ _ h x hx

/-- A successful unwind leaves the invoked continuation's own flag
cleared. -/
theorem unwind_target_cleared (valid : Nat) :
    ∀ (stk : List Stack) (ctx : List LispKind) (file : FileRef) (σ : Nat → Bool)
      (rest : List Stack) (ctx' : List LispKind) (file' : FileRef)
      (σ' : Nat → Bool) (sp : Span) (e : LispKind) (it : List Branch),
      unwindCont valid stk ctx file σ = .ok (rest, ctx', file', σ', sp, e, it) →
      σ' valid = false := by
  intro stk
  induction stk with
  | nil => intro _ _ _ _ _ _ _ _ _ _ h; simp [unwindCont] at h
  | cons s stk ih =>
      intro ctx file σ rest ctx' file' σ' sp e it h
      cases s with
      | MatchCont sp0 e0 it0 a =>
          by_cases ha : a = valid
          · simp [unwindCont, ha] at h
            obtain ⟨-, -, -, hσ, -, -, -⟩ := h
            subst hσ ha
            exact setFlag_self _ _
          · simp [unwindCont, ha] at h
            exact ih _ _ _ _ _ _ _ _ _ _ h
      | Drop_ => simp [unwindCont] at h; exact ih _ _ _ _ _ _ _ _ _ _ h
      | Ret fsp p old c => simp [unwindCont] at h; exact ih _ _ _ _ _ _ _ _ _ _ h
      | List a b c => simp [unwindCont] at h; exact ih _ _ _ _ _ _ _ _ _ _ h
      | DottedList a b c => simp [unwindCont] at h; exact ih _ _ _ _ _ _ _ _ _ _ h
      | DottedList2 a => simp [unwindCont] at h; exact ih _ _ _ _ _ _ _ _ _ _ h
      | App a b c => simp [unwindCont] at h; exact ih _ _ _ _ _ _ _ _ _ _ h
      | App2 a b c d e' => simp [unwindCont] at h; exact ih _ _ _ _ _ _ _ _ _ _ h
      | If a b => simp [unwindCont] at h; exact ih _ _ _ _ _ _ _ _ _ _ h
      | Def a => simp [unwindCont] at h; exact ih _ _ _ _ _ _ _ _ _ _ h
      | Eval a => simp [unwindCont] at h; exact ih _ _ _ _ _ _ _ _ _ _ h
      | Match a b => simp [unwindCont] at h; exact ih _ _ _ _ _ _ _ _ _ _ h
      | TestPattern a b c d e' f =>
          simp [unwindCont] at h; exact ih _ _ _ _ _ _ _ _ _ _ h
      | MapProc a b c d e' =>
          simp [unwindCont] at h; exact ih _ _ _ _ _ _ _ _ _ _ h

/-- A successful unwind pops a prefix of the stack, and the flag of every
`MatchCont` frame inside that prefix (the target's and any other
continuation's alike) ends up cleared. -/
theorem unwind_popped (valid : Nat) :
    ∀ (stk : List Stack) (ctx : List LispKind) (file : FileRef) (σ : Nat → Bool)
      (rest : List Stack) (ctx' : List LispKind) (file' : FileRef)
      (σ' : Nat → Bool) (sp : Span) (e : LispKind) (it : List Branch),
      unwindCont valid stk ctx file σ = .ok (rest, ctx', file', σ', sp, e, it) →
      ∃ popped, stk = popped ++ rest ∧
        ∀ sp0 e0 it0 a, Stack.MatchCont sp0 e0 it0 a ∈ popped →
          σ' a = false := by
  intro stk
  induction stk with
  | nil => intro _ _ _ _ _ _ _ _ _ _ h; simp [unwindCont] at h
  | cons s stk ih =>
      intro ctx file σ rest ctx' file' σ' sp e it h
      cases s with
      | MatchCont sp0 e0 it0 a =>
          by_cases ha : a = valid
          · simp [unwindCont, ha] at h
            obtain ⟨hrest, -, -, hσ, -, -, -⟩ := h
            subst hσ hrest ha
            refine ⟨[.MatchCont sp0 e0 it0 a], rfl, ?_⟩
            intro sp1 e1 it1 a1 hmem
            simp at hmem
            obtain ⟨-, -, -, rfl⟩ := hmem
            exact setFlag_self _ _
          · simp [unwindCont, ha] at h
            obtain ⟨popped, hpop, hflags⟩ := ih _ _ _ _ _ _ _ _ _ _ h
            refine ⟨.MatchCont sp0 e0 it0 a :: popped, by simp [hpop], ?_⟩
            intro sp1 e1 it1 a1 hmem
            rcases List.mem_cons.mp hmem with heq | hmem'
            · cases heq
              exact unwind_preserves_false valid _ _ _ _ _ _ _ _ _ _ _ h a
                (setFlag_self _ _)
            · exact hflags _ _ _ _ hmem'
      | Drop_ =>
          simp [unwindCont] at h
          obtain ⟨popped, hpop, hflags⟩ := ih _ _ _ _ _ _ _ _ _ _ h
          exact ⟨.Drop_ :: popped, by simp [hpop], fun _ _ _ _ hmem => by
            rcases List.mem_cons.mp hmem with heq | hmem'
            · cases heq
            · exact hflags _ _ _ _ hmem'⟩
      | Ret fsp p old c =>
          simp [unwindCont] at h
          obtain ⟨popped, hpop, hflags⟩ := ih _ _ _ _ _ _ _ _ _ _ h
          exact ⟨.Ret fsp p old c :: popped, by simp [hpop], fun _ _ _ _ hmem => by
            rcases List.mem_cons.mp hmem with heq | hmem'
            · cases heq
            · exact hflags _ _ _ _ hmem'⟩
      | List a b c =>
          simp [unwindCont] at h
          obtain ⟨popped, hpop, hflags⟩ := ih _ _ _ _ _ _ _ _ _ _ h
          exact ⟨.List a b c :: popped, by simp [hpop], fun _ _ _ _ hmem => by
            rcases List.mem_cons.mp hmem with heq | hmem'
            · cases heq
            · exact hflags _ _ _ _ hmem'⟩
      | DottedList a b c =>
          simp [unwindCont] at h
          obtain ⟨popped, hpop, hflags⟩ := ih _ _ _ _ _ _ _ _ _ _ h
          exact ⟨.DottedList a b c :: popped, by simp [hpop], fun _ _ _ _ hmem => by
            rcases List.mem_cons.mp hmem with heq | hmem'
            · cases heq
            · exact hflags _ _ _ _ hmem'⟩
      | DottedList2 a =>
          simp [unwindCont] at h
          obtain ⟨popped, hpop, hflags⟩ := ih _ _ _ _ _ _ _ _ _ _ h
          exact ⟨.DottedList2 a :: popped, by simp [hpop], fun _ _ _ _ hmem => by
            rcases List.mem_cons.mp hmem with heq | hmem'
            · cases heq
            · exact hflags _ _ _ _ hmem'⟩
      | App a b c =>
          simp [unwindCont] at h
          obtain ⟨popped, hpop, hflags⟩ := ih _ _ _ _ _ _ _ _ _ _ h
          exact ⟨.App a b c :: popped, by simp [hpop], fun _ _ _ _ hmem => by
            rcases List.mem_cons.mp hmem with heq | hmem'
            · cases heq
            · exact hflags _ _ _ _ hmem'⟩
      | App2 a b c d e' =>
          simp [unwindCont] at h
          obtain ⟨popped, hpop, hflags⟩ := ih _ _ _ _ _ _ _ _ _ _ h
          exact ⟨.App2 a b c d e' :: popped, by simp [hpop], fun _ _ _ _ hmem => by
            rcases List.mem_cons.mp hmem with heq | hmem'
            · cases heq
            · exact hflags _ _ _ _ hmem'⟩
      | If a b =>
          simp [unwindCont] at h
          obtain ⟨popped, hpop, hflags⟩ := ih _ _ _ _ _ _ _ _ _ _ h
          exact ⟨.If a b :: popped, by simp [hpop], fun _ _ _ _ hmem => by
            rcases List.mem_cons.mp hmem with heq | hmem'
            · cases heq
            · exact hflags _ _ _ _ hmem'⟩
      | Def a =>
          simp [unwindCont] at h
          obtain ⟨popped, hpop, hflags⟩ := ih _ _ _ _ _ _ _ _ _ _ h
          exact ⟨.Def a :: popped, by simp [hpop], fun _ _ _ _ hmem => by
            rcases List.mem_cons.mp hmem with heq | hmem'
            · cases heq
            · exact hflags _ _ _ _ hmem'⟩
      | Eval a =>
          simp [unwindCont] at h
          obtain ⟨popped, hpop, hflags⟩ := ih _ _ _ _ _ _ _ _ _ _ h
          exact ⟨.Eval a :: popped, by simp [hpop], fun _ _ _ _ hmem => by
            rcases List.mem_cons.mp hmem with heq | hmem'
            · cases heq
            · exact hflags _ _ _ _ hmem'⟩
      | Match a b =>
          simp [unwindCont] at h
          obtain ⟨popped, hpop, hflags⟩ := ih _ _ _ _ _ _ _ _ _ _ h
          exact ⟨.Match a b :: popped, by simp [hpop], fun _ _ _ _ hmem => by
            rcases List.mem_cons.mp hmem with heq | hmem'
            · cases heq
            · exact hflags _ _ _ _ hmem'⟩
      | TestPattern a b c d e' f =>
          simp [unwindCont] at h
          obtain ⟨popped, hpop, hflags⟩ := ih _ _ _ _ _ _ _ _ _ _ h
          exact ⟨.TestPattern a b c d e' f :: popped, by simp [hpop],
            fun _ _ _ _ hmem => by
              rcases List.mem_cons.mp hmem with heq | hmem'
              · cases heq
              · exact hflags _ _ _ _ hmem'⟩
      | MapProc a b c d e' =>
          simp [unwindCont] at h
          obtain ⟨popped, hpop, hflags⟩ := ih _ _ _ _ _ _ _ _ _ _ h
          exact ⟨.MapProc a b c d e' :: popped, by simp [hpop],
            fun _ _ _ _ hmem => by
              rcases List.mem_cons.mp hmem with heq | hmem'
              · cases heq
              · exact hflags _ _ _ _ hmem'⟩

/-- C5: invoking a match continuation whose `valid` flag is cleared
raises "continuation has expired"; the flag is cleared when the
continuation is successfully invoked (so a second invocation raises the
error) and when the owning `MatchCont` frame is popped by the
`State::Ret` handler (the match form finishing or another branch
proceeding). -/
theorem continuation_expiry (sp2 : Span) (valid : Nat) (m : Machine) :
    (m.flags valid = false →
      invokeCont sp2 valid m = .error "continuation has expired") ∧
    (∀ m' s, invokeCont sp2 valid m = .ok (m', s) →
      m'.flags valid = false ∧
      ∀ sp2', invokeCont sp2' valid m' = .error "continuation has expired") ∧
    (∀ v sp e it rest, m.stack = .MatchCont sp e it valid :: rest →
      ∃ m', stepRet v m = .next m' (.Ret v) ∧ m'.flags valid = false) := by
  refine ⟨?_, ?_, ?_⟩
  · intro h; simp [invokeCont, h]
  · intro m' s h
    unfold invokeCont at h
    by_cases hf : m.flags valid = false
    · simp [hf] at h
    · rw [if_neg hf] at h
      cases hu : unwindCont valid m.stack m.ctx m.file m.flags with
      | error s' => rw [hu] at h; exact absurd h (by simp)
      | ok tup =>
          obtain ⟨rest, ctx', file', σ', sp', e', it'⟩ := tup
          rw [hu] at h
          have hcl := unwind_target_cleared valid _ _ _ _ _ _ _ _ _ _ _ hu
          simp at h
          obtain ⟨hm', -⟩ := h
          subst hm'
          exact ⟨hcl, fun sp2' => by simp [invokeCont, hcl]⟩
  · intro v sp e it rest hstk
    exact ⟨{ m with stack := rest, flags := setFlag m.flags valid },
      by simp [stepRet, hstk], setFlag_self _ _⟩

/-- Witness for C5: (a) invoking with a cleared flag errors; (b) after a
successful invocation the flag is cleared and re-invocation errors;
(c) popping the owning frame clears the flag. -/
theorem continuation_expiry_witness :
    invokeCont ⟨0, 0⟩ 0 ⟨[], ⟨0⟩, [], fun _ => false, fun _ => none⟩ =
      .error "continuation has expired" ∧
    ((⟨[], ⟨0⟩, [], setFlag (fun _ => true) 5, fun _ => none⟩ : Machine).flags 5 =
        false ∧
      ∀ sp2', invokeCont sp2' 5
          ⟨[], ⟨0⟩, [], setFlag (fun _ => true) 5, fun _ => none⟩ =
        .error "continuation has expired") ∧
    (∃ m', stepRet .Undef
        ⟨[], ⟨0⟩, [.MatchCont ⟨1, 1⟩ .Undef [] 5], fun _ => true, fun _ => none⟩ =
        .next m' (.Ret .Undef) ∧ m'.flags 5 = false) :=
  ⟨(continuation_expiry ⟨0, 0⟩ 0 ⟨[], ⟨0⟩, [], fun _ => false, fun _ => none⟩).1
      rfl,
   (continuation_expiry ⟨0, 0⟩ 5
      ⟨[], ⟨0⟩, [.MatchCont ⟨1, 1⟩ .Undef [] 5], fun _ => true,
        fun _ => none⟩).2.1
      ⟨[], ⟨0⟩, [], setFlag (fun _ => true) 5, fun _ => none⟩
      (.Match ⟨1, 1⟩ .Undef []) rfl,
   (continuation_expiry ⟨0, 0⟩ 5
      ⟨[], ⟨0⟩, [.MatchCont ⟨1, 1⟩ .Undef [] 5], fun _ => true,
        fun _ => none⟩).2.2
      .Undef ⟨1, 1⟩ .Undef [] [] rfl⟩

/-- C10: a successful continuation invocation pops a prefix of the
control stack, and every `MatchCont` frame in that prefix — the frames of
other continuations included — has its flag cleared in the resulting
state, so any later invocation of those continuations raises
"continuation has expired". -/
theorem unwind_clears_all_matchconts (sp2 : Span) (valid : Nat) (m m' : Machine)
    (s : State) (h : invokeCont sp2 valid m = .ok (m', s)) :
    ∃ popped, m.stack = popped ++ m'.stack ∧
      ∀ sp e it a, Stack.MatchCont sp e it a ∈ popped →
        m'.flags a = false ∧
        ∀ sp2', invokeCont sp2' a m' = .error "continuation has expired" := by
  unfold invokeCont at h
  by_cases hf : m.flags valid = false
  · simp [hf] at h
  · rw [if_neg hf] at h
    cases hu : unwindCont valid m.stack m.ctx m.file m.flags with
    | error s' => rw [hu] at h; exact absurd h (by simp)
    | ok tup =>
        obtain ⟨rest, ctx', file', σ', sp', e', it'⟩ := tup
        rw [hu] at h
        simp at h
        obtain ⟨hm', -⟩ := h
        obtain ⟨popped, hpop, hflags⟩ := unwind_popped valid _ _ _ _ _ _ _ _ _ _ _ hu
        subst hm'
        refine ⟨popped, by simpa using hpop, ?_⟩
        intro sp e it a hmem
        have hfa := hflags _ _ _ _ hmem
        exact ⟨hfa, fun sp2' => by simp [invokeCont, hfa]⟩

/-- Witness for C10 at a concrete one-frame stack whose only frame owns
the invoked continuation. -/
theorem unwind_clears_all_matchconts_witness :
    ∃ popped,
      (⟨[], ⟨0⟩, [.MatchCont ⟨1, 1⟩ .Undef [] 5], fun _ => true,
        fun _ => none⟩ : Machine).stack =
        popped ++
          (⟨[], ⟨0⟩, [], setFlag (fun _ => true) 5, fun _ => none⟩ : Machine).stack ∧
      ∀ sp e it a, Stack.MatchCont sp e it a ∈ popped →
        (⟨[], ⟨0⟩, [], setFlag (fun _ => true) 5, fun _ => none⟩ : Machine).flags a =
          false ∧
        ∀ sp2', invokeCont sp2' a
            ⟨[], ⟨0⟩, [], setFlag (fun _ => true) 5, fun _ => none⟩ =
          .error "continuation has expired" :=
  unwind_clears_all_matchconts ⟨0, 0⟩ 5
    ⟨[], ⟨0⟩, [.MatchCont ⟨1, 1⟩ .Undef [] 5], fun _ => true, fun _ => none⟩
    ⟨[], ⟨0⟩, [], setFlag (fun _ => true) 5, fun _ => none⟩
    (.Match ⟨1, 1⟩ .Undef []) rfl

/-- The comparison loop on all-integer arguments computes the chained
predicate. -/
theorem ibb_go_chain (f : Int → Int → Bool) (R : Int → Int → Prop)
    [DecidableRel R] (hf : ∀ x y, f x y = decide (R x y)) :
    ∀ (ns : List Int) (a : Int),
      int_bool_binop_go f a (ns.map LispKind.Number) =
        .ok (decide (List.Chain' R (a :: ns))) := by
  intro ns
  induction ns with
  | nil => intro a; simp [int_bool_binop_go]
  | cons b ns ih =>
      intro a
      simp only [List.map_cons, int_bool_binop_go, as_int, unwrap]
      rw [hf]
      by_cases hab : R a b
      · simp [hab, ih b, List.chain'_cons]
      · simp [hab, List.chain'_cons]

/-- `int_bool_binop` on a nonempty all-integer argument list computes
the chained predicate. -/
theorem ibb_chain (f : Int → Int → Bool) (R : Int → Int → Prop)
    [DecidableRel R] (hf : ∀ x y, f x y = decide (R x y))
    (n0 : Int) (ns : List Int) :
    int_bool_binop f ((n0 :: ns).map LispKind.Number) =
      .ok (decide (List.Chain' R (n0 :: ns))) := by
  simp only [List.map_cons, int_bool_binop, as_int, unwrap]
  exact ibb_go_chain f R hf ns n0

/-- C8: each comparison builtin `Lt`/`Le`/`Gt`/`Ge`/`Eq` on integer
arguments returns `Bool(true)` exactly when the corresponding relation
holds between every adjacent pair of the argument sequence (`Chain'`),
which is vacuously true on a single argument. -/
theorem comparison_chained (n0 : Int) (ns : List Int) :
    evaluate_builtin .Lt ((n0 :: ns).map LispKind.Number) =
      .ok (.Bool (decide (List.Chain' (· < ·) (n0 :: ns)))) ∧
    evaluate_builtin .Le ((n0 :: ns).map LispKind.Number) =
      .ok (.Bool (decide (List.Chain' (· ≤ ·) (n0 :: ns)))) ∧
    evaluate_builtin .Gt ((n0 :: ns).map LispKind.Number) =
      .ok (.Bool (decide (List.Chain' (· > ·) (n0 :: ns)))) ∧
    evaluate_builtin .Ge ((n0 :: ns).map LispKind.Number) =
      .ok (.Bool (decide (List.Chain' (· ≥ ·) (n0 :: ns)))) ∧
    evaluate_builtin .Eq ((n0 :: ns).map LispKind.Number) =
      .ok (.Bool (decide (List.Chain' (· = ·) (n0 :: ns)))) := by
  refine ⟨?_, ?_, ?_, ?_, ?_⟩ <;> simp only [evaluate_builtin]
  · rw [ibb_chain _ (· < ·) (fun _ _ => rfl)]; rfl
  · rw [ibb_chain _ (· ≤ ·) (fun _ _ => rfl)]; rfl
  · rw [ibb_chain _ (· > ·) (fun _ _ => rfl)]; rfl
  · rw [ibb_chain _ (· ≥ ·) (fun _ _ => rfl)]; rfl
  · rw [ibb_chain _ (· = ·) (fun _ _ => rfl)]; rfl

/-- `as_int` on a value that does not unwrap to a `Number` reports the
"expected a integer" type error. -/
theorem as_int_not_number (v : LispKind) (h : ∀ n, unwrap v ≠ .Number n) :
    as_int v = .error ("expected a integer, got " ++ printLisp v) := by
  unfold as_int
  split
  · next n heq => exact absurd heq (h n)
  · rfl

/-- C9: a comparison builtin applied to a single argument still
type-checks it: if the argument does not unwrap to a `Number`, the call
raises the "expected a integer" type error instead of returning
`Bool(true)`. -/
theorem comparison_single_arg_type_error (v : LispKind)
    (h : ∀ n, unwrap v ≠ .Number n) :
    evaluate_builtin .Lt [v] =
      .error ("expected a integer, got " ++ printLisp v) ∧
    evaluate_builtin .Le [v] =
      .error ("expected a integer, got " ++ printLisp v) ∧
    evaluate_builtin .Gt [v] =
      .error ("expected a integer, got " ++ printLisp v) ∧
    evaluate_builtin .Ge [v] =
      .error ("expected a integer, got " ++ printLisp v) ∧
    evaluate_builtin .Eq [v] =
      .error ("expected a integer, got " ++ printLisp v) := by
  have he := as_int_not_number v h
  refine ⟨?_, ?_, ?_, ?_, ?_⟩ <;>
    simp [evaluate_builtin, int_bool_binop, he, Except.map]

/-- Witness for C9: comparing a lone string raises the type error. -/
theorem comparison_single_arg_type_error_witness :
    evaluate_builtin .Lt [.String "x"] =
      .error ("expected a integer, got " ++ printLisp (.String "x")) ∧
    evaluate_builtin .Le [.String "x"] =
      .error ("expected a integer, got " ++ printLisp (.String "x")) ∧
    evaluate_builtin .Gt [.String "x"] =
      .error ("expected a integer, got " ++ printLisp (.String "x")) ∧
    evaluate_builtin .Ge [.String "x"] =
      .error ("expected a integer, got " ++ printLisp (.String "x")) ∧
    evaluate_builtin .Eq [.String "x"] =
      .error ("expected a integer, got " ++ printLisp (.String "x")) :=
  comparison_single_arg_type_error (.String "x") (by intro n; simp [unwrap])

/-- The exponential-backoff construction preserves the flattened element
sequence: starting at index `i` it re-materialises exactly `es.drop i`
(followed by whatever the terminal continuation `κ` appends). -/
theorem eb_chain (es t : List LispKind) (κ : List LispKind → LispKind)
    (hκ : ∀ xs, ProperChain (κ xs) (xs ++ t)) :
    ∀ (fuel i : Nat),
      ProperChain (exponential_backoff es κ i fuel) (es.drop i ++ t) := by
  intro fuel
  induction fuel with
  | zero => intro i; exact hκ _
  | succ fuel ih =>
      intro i
      by_cases hle : es.length ≤ 2 * i
      · simp only [exponential_backoff, if_pos hle]; exact hκ _
      · simp only [exponential_backoff, if_neg hle]
        have h2 : (es.drop i).drop i = es.drop (2 * i) := by
          rw [List.drop_drop, Nat.two_mul]
        have hsplit : (es.drop i).take i ++ es.drop (2 * i) = es.drop i := by
          rw [← h2]; exact List.take_append_drop i (es.drop i)
        have hstep := ProperChain.DottedList ((es.drop i).take i) _ _ (ih (2 * i))
        rw [← List.append_assoc, hsplit] at hstep
        exact hstep

/-- `head` on a proper list returns the first flattened element. -/
theorem head_chain (v : LispKind) (l : List LispKind) (h : ProperChain v l) :
    ∀ x xs, l = x :: xs → head v = .ok x := by
  induction h with
  | List es => intro x xs hl; subst hl; rfl
  | DottedList es r l hr ih =>
      intro x xs hl
      cases es with
      | nil =>
          simp only [List.nil_append] at hl
          simpa [head] using ih x xs hl
      | cons e es' =>
          injection hl with h1 h2
          subst h1
          rfl

/-- `tail` on a proper list succeeds and drops exactly the first
flattened element. -/
theorem tail_chain (v : LispKind) (l : List LispKind) (h : ProperChain v l) :
    ∀ x xs, l = x :: xs → ∃ w, tail v = .ok w ∧ ProperChain w xs := by
  induction h with
  | List es =>
      intro x xs hl; subst hl
      refine ⟨exponential_backoff (x :: xs) LispKind.List 1 (x :: xs).length,
        rfl, ?_⟩
      have := eb_chain (x :: xs) [] LispKind.List
        (fun ys => by simpa using ProperChain.List ys) ((x :: xs).length) 1
      simpa using this
  | DottedList es r l hr ih =>
      intro x xs hl
      cases es with
      | nil =>
          simp only [List.nil_append] at hl
          obtain ⟨w, hw, hc⟩ := ih x xs hl
          exact ⟨w, by simpa [tail] using hw, hc⟩
      | cons e es' =>
          injection hl with h1 h2
          subst h1
          refine ⟨exponential_backoff (e :: es') (fun ys => .DottedList ys r) 1
            (e :: es').length, rfl, ?_⟩
          have := eb_chain (e :: es') l (fun ys => .DottedList ys r)
            (fun ys => ProperChain.DottedList ys r l hr) ((e :: es').length) 1
          subst h2
          simpa using this

/-- Iterating the `Tail` builtin `k` times on a proper list of flattened
length `> k` succeeds and drops the first `k` elements. -/
theorem tail_iter_chain :
    ∀ (k : Nat) (v : LispKind) (l : List LispKind), ProperChain v l →
      k < l.length →
      ∃ w, tail_iter k v = .ok w ∧ ProperChain w (l.drop k) := by
  intro k
  induction k with
  | zero => intro v l h _; exact ⟨v, rfl, by simpa using h⟩
  | succ k ih =>
      intro v l h hk
      cases l with
      | nil => simp at hk
      | cons x xs =>
          obtain ⟨w1, hw1, hc1⟩ := tail_chain v _ h x xs rfl
          have hk' : k < xs.length := by simp at hk; omega
          obtain ⟨w, hw, hc⟩ := ih w1 xs hc1 hk'
          refine ⟨w, ?_, by simpa using hc⟩
          simp [tail_iter, evaluate_builtin, hw1, hw, Except.bind]

/-- C6: for a proper list `v = List [v0, …, v(n-1)]` and `k < n`,
applying the `Tail` builtin `k` times and then the `Head` builtin yields
`v[k]`. -/
theorem head_tail_iter_get (es : List LispKind) (k : Nat) (h : k < es.length) :
    (tail_iter k (.List es)).bind (fun w => evaluate_builtin .Head [w]) =
      .ok (es.getD k .Undef) := by
  obtain ⟨w, hw, hc⟩ := tail_iter_chain k _ es (ProperChain.List es) h
  have hd : es.drop k = es.getD k .Undef :: es.drop (k + 1) := by
    rw [List.getD_eq_getElem es .Undef h]
    exact List.drop_eq_getElem_cons h
  have hh := head_chain w _ hc _ _ hd
  simp only [hw, Except.bind]
  simpa [evaluate_builtin] using hh

/-- Witness for C6: `head (tail [7, 8]) = 8`. -/
theorem head_tail_iter_get_witness :
    (tail_iter 1 (.List [.Number 7, .Number 8])).bind
      (fun w => evaluate_builtin .Head [w]) = .ok (.Number 8) := by
  have := head_tail_iter_get [.Number 7, .Number 8] 1 (by simp)
  simpa using this

/-- Depth bound for the exponential-backoff construction: once
`len ≤ i·2^d`, at most `d` doubling steps (hence `DottedList` nodes)
remain. -/
theorem eb_depth (es : List LispKind) (κ : List LispKind → LispKind)
    (hκ : ∀ xs, ddepth (κ xs) = 0) :
    ∀ (fuel i d : Nat), es.length ≤ i * 2 ^ d →
      ddepth (exponential_backoff es κ i fuel) ≤ d := by
  intro fuel
  induction fuel with
  | zero => intro i d _; simp [exponential_backoff, hκ]
  | succ fuel ih =>
      intro i d hd
      by_cases hle : es.length ≤ 2 * i
      · simp [exponential_backoff, if_pos hle, hκ]
      · match d with
        | 0 =>
            exfalso
            simp only [pow_zero, mul_one] at hd
            omega
        | d + 1 =>
            simp only [exponential_backoff, if_neg hle, ddepth]
            have hle2 : es.length ≤ 2 * i * 2 ^ d := by
              calc es.length ≤ i * 2 ^ (d + 1) := hd
                _ = 2 * i * 2 ^ d := by ring
            have := ih (2 * i) d hle2
            omega

/-- C7: on a proper list value `List es` with `es ≠ []`, the value built
by the `Tail` builtin has `DottedList`-nesting depth at most
`1 + ⌈log₂ n⌉` (with `⌈log₂·⌉ = Nat.clog 2`); indeed the construction
needs at most `⌈log₂ n⌉` doubling steps from index 1. -/
theorem tail_depth_log (es : List LispKind) (h : es ≠ []) (w : LispKind)
    (hw : tail (.List es) = .ok w) :
    ddepth w ≤ 1 + Nat.clog 2 es.length := by
  cases es with
  | nil => exact absurd rfl h
  | cons x xs =>
      have hw' : exponential_backoff (x :: xs) LispKind.List 1
          (x :: xs).length = w := by
        simpa [tail] using hw
      subst hw'
      have hb : (x :: xs).length ≤ 1 * 2 ^ Nat.clog 2 (x :: xs).length := by
        simpa using Nat.le_pow_clog (by norm_num) ((x :: xs).length)
      have := eb_depth (x :: xs) LispKind.List (fun _ => rfl)
        ((x :: xs).length) 1 (Nat.clog 2 (x :: xs).length) hb
      omega

/-- Witness for C7 on the three-element list `[1, 2, 3]`. -/
theorem tail_depth_log_witness :
    ddepth (.DottedList [.Number 2] (.List [.Number 3])) ≤
      1 + Nat.clog 2 [LispKind.Number 1, .Number 2, .Number 3].length :=
  tail_depth_log [.Number 1, .Number 2, .Number 3] (by simp)
    (.DottedList [.Number 2] (.List [.Number 3])) rfl
